import Mathlib

/-!
Shallow embedding of the adaptive sorting engine in `src/HyperionSort.py`
(class `EnhancedHyperionSort` and its collaborators `AdaptiveCache` and
`StreamProcessor`), together with theorems settling the frozen claims.

Elements are modelled as exact rationals (`ℚ`); the Python code works on
`float64` values, and every comparison/branch the claims depend on is a
plain order comparison, so exact rational arithmetic is the faithful
reading.  Arrays are Lean lists.  Code that can raise is modelled with
`Option`.  Randomized sampling (`np.random.choice`) is modelled by passing
the drawn sample explicitly; pluggable external capabilities (lz4
compression, the sklearn linear regression) are modelled as explicit
function parameters.
-/

/-- Ascending stable sort of a list of rationals.  Models `np.sort` /
`np.sort(..., kind="stable")` / Python `sorted`: all of them return the
ascending reordering, which on a linearly ordered type is the unique
sorted permutation. -/
def sortQ (l : List ℚ) : List ℚ := List.insertionSort (· ≤ ·) l

theorem sortQ_sorted (l : List ℚ) : List.Sorted (· ≤ ·) (sortQ l) :=
  List.sorted_insertionSort (· ≤ ·) l

theorem sortQ_perm (l : List ℚ) : (sortQ l).Perm l :=
  List.perm_insertionSort (· ≤ ·) l

theorem sortQ_length (l : List ℚ) : (sortQ l).length = l.length :=
  (sortQ_perm l).length_eq

theorem sortQ_eq_self {l : List ℚ} (h : List.Sorted (· ≤ ·) l) : sortQ l = l :=
  List.eq_of_perm_of_sorted (sortQ_perm l) (sortQ_sorted l) h

theorem sortQ_perm_congr {l l' : List ℚ} (h : l.Perm l') : sortQ l = sortQ l' :=
  List.eq_of_perm_of_sorted ((sortQ_perm l).trans (h.trans (sortQ_perm l').symm))
    (sortQ_sorted l) (sortQ_sorted l')

/-- `np.all(arr[:-1] <= arr[1:])`: every adjacent pair is non-decreasing.
This is the verification check `sort` performs on a dispatched result. -/
def nonDecreasing : List ℚ → Bool
  | [] => true
  | [_] => true
  | x :: y :: t => decide (x ≤ y) && nonDecreasing (y :: t)

theorem nonDecreasing_iff_chain' (l : List ℚ) :
    nonDecreasing l = true ↔ l.Chain' (· ≤ ·) := by
  induction l with
  | nil => simp [nonDecreasing]
  | cons x t ih =>
    cases t with
    | nil => simp [nonDecreasing]
    | cons y s =>
      simp only [nonDecreasing, Bool.and_eq_true, decide_eq_true_eq, List.chain'_cons]
      exact and_congr Iff.rfl ih

theorem nonDecreasing_iff_sorted (l : List ℚ) :
    nonDecreasing l = true ↔ List.Sorted (· ≤ ·) l := by
  rw [nonDecreasing_iff_chain']
  exact List.chain'_iff_pairwise

/-! ### `EnhancedHyperionSort._ninther` (claim C8) -/

/-- `np.median`: middle element of the ascending sorted copy when the length
is odd, the mean of the two middle elements when it is even.
`np.median([])` is NaN; the empty case is modelled as `0` and is not used by
any claim. -/
def npMedian (l : List ℚ) : ℚ :=
  let s := sortQ l
  let n := s.length
  if n = 0 then 0
  else if n % 2 = 1 then s.getD (n / 2) 0
  else (s.getD (n / 2 - 1) 0 + s.getD (n / 2) 0) / 2

/-- `EnhancedHyperionSort._ninther`: for fewer than nine elements, the plain
`np.median`; otherwise, with `thirds = len(arr) // 3`, the median of the
three medians of the strided triples `(arr[i], arr[i+thirds], arr[i+2*thirds])`
for `i = 0, 1, 2`.  Out-of-range indexing cannot occur for `len ≥ 9`
(`2 + 2*(len/3) < len`), so `getD`'s default is never consulted. -/
def ninther (arr : List ℚ) : ℚ :=
  if arr.length < 9 then npMedian arr
  else
    let t := arr.length / 3
    npMedian ((List.range 3).map (fun i =>
      npMedian [arr.getD i 0, arr.getD (i + t) 0, arr.getD (i + 2 * t) 0]))

/-- The pivot the spec describes: split the array into three equal contiguous
thirds, take the median of each third, then the median of those medians.
This definition follows the spec's words and exists only to be compared with
`ninther`, which is translated from the source. -/
def nintherSpecThirds (arr : List ℚ) : ℚ :=
  if arr.length < 9 then npMedian arr
  else
    let t := arr.length / 3
    npMedian [npMedian (arr.take t), npMedian ((arr.drop t).take t),
      npMedian (arr.drop (2 * t))]

/-- Median of three values in closed form: the middle one. -/
def med3 (a b c : ℚ) : ℚ := max (min a b) (min (max a b) c)

theorem npMedian_perm_congr {l l' : List ℚ} (h : l.Perm l') :
    npMedian l = npMedian l' := by
  simp [npMedian, sortQ_perm_congr h]

theorem npMedian_sorted_three {x y z : ℚ} (hxy : x ≤ y) (hyz : y ≤ z) :
    npMedian [x, y, z] = y := by
  have hs : List.Sorted (· ≤ ·) [x, y, z] := by
    simp [List.sorted_cons]
    exact ⟨⟨hxy, le_trans hxy hyz⟩, hyz⟩
  simp [npMedian, sortQ_eq_self hs]

theorem npMedian_three (a b c : ℚ) : npMedian [a, b, c] = med3 a b c := by
  have pACB : ([a, b, c] : List ℚ).Perm [a, c, b] :=
    List.Perm.cons a (List.Perm.swap c b [])
  have pBAC : ([a, b, c] : List ℚ).Perm [b, a, c] := List.Perm.swap b a [c]
  have pCAB : ([a, b, c] : List ℚ).Perm [c, a, b] :=
    pACB.trans (List.Perm.swap c a [b])
  have pBCA : ([a, b, c] : List ℚ).Perm [b, c, a] :=
    pBAC.trans (List.Perm.cons b (List.Perm.swap c a []))
  have pCBA : ([a, b, c] : List ℚ).Perm [c, b, a] :=
    pCAB.trans (List.Perm.cons c (List.Perm.swap b a []))
  rcases le_total a b with hab | hba <;> rcases le_total b c with hbc | hcb <;>
    rcases le_total a c with hac | hca
  · -- a ≤ b ≤ c
    rw [npMedian_sorted_three hab hbc]
    simp [med3, min_eq_left hab, max_eq_right hab, min_eq_left hbc,
      max_eq_right hab]
  · -- a ≤ b, b ≤ c, c ≤ a: all equal
    have h1 : c = a := le_antisymm hca (le_trans hab hbc)
    have h2 : b = a := le_antisymm (h1 ▸ hbc) hab
    rw [h1, h2, npMedian_sorted_three (le_refl a) (le_refl a)]
    simp [med3]
  · -- a ≤ c ≤ b
    rw [npMedian_perm_congr pACB, npMedian_sorted_three hac hcb]
    simp [med3, min_eq_left hab, max_eq_right hab, min_eq_right hcb,
      max_eq_right hac]
  · -- c ≤ a ≤ b
    rw [npMedian_perm_congr pCAB, npMedian_sorted_three hca hab]
    simp [med3, min_eq_left hab, max_eq_right hab, min_eq_right hcb,
      max_eq_left hca]
  · -- b ≤ a ≤ c
    rw [npMedian_perm_congr pBAC, npMedian_sorted_three hba hac]
    simp [med3, min_eq_right hba, max_eq_left hba, min_eq_left hac,
      max_eq_right hba]
  · -- b ≤ c ≤ a
    rw [npMedian_perm_congr pBCA, npMedian_sorted_three hbc hca]
    simp [med3, min_eq_right hba, max_eq_left hba, min_eq_right hca,
      max_eq_right hbc]
  · -- c ≤ b ≤ a, a ≤ c: all equal
    have h1 : c = a := le_antisymm (le_trans hcb hba) hac
    have h2 : b = a := le_antisymm hba (h1 ▸ hcb)
    rw [h1, h2, npMedian_sorted_three (le_refl a) (le_refl a)]
    simp [med3]
  · -- c ≤ b ≤ a
    rw [npMedian_perm_congr pCBA, npMedian_sorted_three hcb hba]
    simp [med3, min_eq_right hba, max_eq_left hba, min_eq_right hca,
      max_eq_left hcb]

/-- The median of the strided triple `(arr[i], arr[i + len/3], arr[i + 2*(len/3)])`
that `_ninther` actually samples for `i = 0, 1, 2`. -/
def stridedTriple (arr : List ℚ) (i : ℕ) : ℚ :=
  med3 (arr.getD i 0) (arr.getD (i + arr.length / 3) 0)
    (arr.getD (i + 2 * (arr.length / 3)) 0)

/-- Concrete 9-element input separating the code's strided-triple ninther
from the spec's contiguous-thirds ninther. -/
def nintherEx : List ℚ := [0, 0, 9, 0, 9, 9, 9, 0, 9]

/-- C8 (counterexample): on `[0,0,9,0,9,9,9,0,9]` the code's `_ninther`
samples the strided triples `(0,0,9), (0,9,0), (9,9,9)` with medians
`0, 0, 9` and returns `0`, while the median-of-medians of the three
contiguous thirds `[0,0,9], [0,9,9], [9,0,9]` (medians `0, 9, 9`) is `9`:
the claim that the pivot equals the median of the thirds' medians is false. -/
theorem ninther_thirds_counterexample :
    ninther nintherEx = 0 ∧ nintherSpecThirds nintherEx = 9 ∧
      ninther nintherEx ≠ nintherSpecThirds nintherEx := by
  refine ⟨by decide, by decide, ?_⟩
  intro h
  rw [show ninther nintherEx = 0 by decide,
    show nintherSpecThirds nintherEx = 9 by decide] at h
  exact absurd h (by norm_num)

/-- C8 (amended): for arrays of at least 9 elements the pivot is the median
of the medians of the three *strided* triples
`(arr[i], arr[i + len//3], arr[i + 2*(len//3)])`, `i = 0, 1, 2` — not of the
three contiguous thirds; for arrays of fewer than 9 elements it is the plain
`np.median` of the array. -/
theorem ninther_strided_medians (arr : List ℚ) :
    (arr.length < 9 → ninther arr = npMedian arr) ∧
    (9 ≤ arr.length →
      ninther arr =
        med3 (stridedTriple arr 0) (stridedTriple arr 1) (stridedTriple arr 2)) := by
  constructor
  · intro h
    simp [ninther, h]
  · intro h
    rw [ninther, if_neg (by omega)]
    show npMedian (List.map _ (List.range 3)) = _
    rw [show List.range 3 = [0, 1, 2] from rfl]
    simp only [List.map_cons, List.map_nil, npMedian_three, stridedTriple]

/-- Witness for `ninther_strided_medians` at the concrete inputs
`[0,…,8]` (length 9) and `[3,1,2]` (length 3). -/
theorem ninther_strided_medians_witness :
    (9 ≤ ([0, 1, 2, 3, 4, 5, 6, 7, 8] : List ℚ).length ∧
      ninther [0, 1, 2, 3, 4, 5, 6, 7, 8] =
        med3 (stridedTriple [0, 1, 2, 3, 4, 5, 6, 7, 8] 0)
          (stridedTriple [0, 1, 2, 3, 4, 5, 6, 7, 8] 1)
          (stridedTriple [0, 1, 2, 3, 4, 5, 6, 7, 8] 2)) ∧
    (([(3 : ℚ), 1, 2].length < 9) ∧ ninther [(3 : ℚ), 1, 2] = npMedian [(3 : ℚ), 1, 2]) :=
  ⟨⟨by decide, (ninther_strided_medians [0, 1, 2, 3, 4, 5, 6, 7, 8]).2 (by decide)⟩,
    ⟨by decide, (ninther_strided_medians [(3 : ℚ), 1, 2]).1 (by decide)⟩⟩

/-! ### `EnhancedHyperionSort._compression_sort` (claim C5) -/

/-- `EnhancedHyperionSort._compression_sort`.  The lz4 `compress` call is
external to the repository, so the size of the compressed byte string is an
explicit parameter `csize`; `arr.nbytes` of a float64 array is
`8 * arr.length`, so `compression_ratio = csize arr / (8 * len(arr))`.
Because `decompress (compress bytes) = bytes` (lossless round trip), the
array the code sorts after decompression is `arr` itself.
Mirrors the source: below the threshold return `(arr, 1.0)`; if the ratio is
*strictly* greater than `1.0` return `(arr, 1.0)`; otherwise return the
ascending-sorted array and the achieved ratio. -/
def compression_sort (cthr : ℕ) (csize : List ℚ → ℕ) (arr : List ℚ) :
    List ℚ × ℚ :=
  if arr.length < cthr then (arr, 1)
  else
    let ratio : ℚ := (csize arr : ℚ) / (8 * arr.length)
    if 1 < ratio then (arr, 1)
    else (sortQ arr, ratio)

/-- C5 (counterexample): with `compression_threshold = 2` and a compressor
that produces exactly as many bytes as the input (`16 = 8 * 2`, ratio `1.0`),
the ratio is ≥ 1.0, yet `_compression_sort` does *not* return the original
array unchanged: the guard is the strict comparison `ratio > 1.0`, so
`[2, 1]` comes back sorted as `[1, 2]`. -/
theorem compression_sort_boundary_counterexample :
    ((16 : ℚ) / (8 * ([2, 1] : List ℚ).length) = 1) ∧
    compression_sort 2 (fun _ => 16) [2, 1] = ([1, 2], 1) ∧
    ([1, 2] : List ℚ) ≠ [2, 1] := by
  have hs : sortQ [2, 1] = ([1, 2] : List ℚ) := by decide
  refine ⟨by norm_num, ?_, by decide⟩
  simp only [compression_sort]
  norm_num [hs]

/-- C5 (amended): for arrays at least as long as the compression threshold,
if the compressed-to-original ratio is *strictly greater than* 1.0 the
original array is returned unchanged with ratio 1.0; otherwise (ratio ≤ 1.0,
including exactly 1.0) the fully ascending-sorted array is returned together
with the achieved ratio. -/
theorem compression_sort_spec (cthr : ℕ) (csize : List ℚ → ℕ) (arr : List ℚ)
    (h : cthr ≤ arr.length) :
    ((1 : ℚ) < (csize arr : ℚ) / (8 * arr.length) →
      compression_sort cthr csize arr = (arr, 1)) ∧
    ((csize arr : ℚ) / (8 * arr.length) ≤ 1 →
      compression_sort cthr csize arr =
          (sortQ arr, (csize arr : ℚ) / (8 * arr.length)) ∧
        List.Sorted (· ≤ ·) (compression_sort cthr csize arr).1 ∧
        (compression_sort cthr csize arr).1.Perm arr) := by
  constructor
  · intro hr
    rw [compression_sort, if_neg (by omega)]
    simp only [if_pos hr]
  · intro hr
    have hout : compression_sort cthr csize arr =
        (sortQ arr, (csize arr : ℚ) / (8 * arr.length)) := by
      rw [compression_sort, if_neg (by omega)]
      simp only [if_neg (not_lt.mpr hr)]
    exact ⟨hout, by rw [hout]; exact sortQ_sorted arr, by rw [hout]; exact sortQ_perm arr⟩

/-- Witness for `compression_sort_spec`: threshold 3, a 24-byte compressed
image of a 3-element (24-byte) input — ratio `1/2 ≤ 1` — yields the sorted
array with that ratio. -/
theorem compression_sort_spec_witness :
    (3 ≤ ([3, 1, 2] : List ℚ).length) ∧
    compression_sort 3 (fun _ => 12) [3, 1, 2] =
        (sortQ [3, 1, 2], (12 : ℚ) / (8 * ([3, 1, 2] : List ℚ).length)) ∧
      List.Sorted (· ≤ ·) (compression_sort 3 (fun _ => 12) [3, 1, 2]).1 ∧
      (compression_sort 3 (fun _ => 12) [3, 1, 2]).1.Perm [3, 1, 2] :=
  ⟨by decide, (compression_sort_spec 3 (fun _ => 12) [3, 1, 2] (by decide)).2 (by norm_num)⟩

/-! ### Percentile partitioning, `_hybrid_sort`, and `sort`'s verification
step (claims C1, C2, C3) -/

/-- Floor of a rational: `q.num / q.den` (the same value as `⌊q⌋`,
see `Rat.floor_def`), kept in this directly computable form. -/
def ratFloor (q : ℚ) : ℤ := q.num / q.den

/-- `np.percentile(arr, q)` with the default linear interpolation: with `s`
the ascending sorted copy and `n = len(arr)`, the virtual index is
`v = q * (n-1) / 100` and the result interpolates between `s[⌊v⌋]` and
`s[⌊v⌋ + 1]`.  Only `0 ≤ q ≤ 100` is ever passed, so `0 ≤ v ≤ n - 1`; when
`v = n - 1` the fractional part is `0`, so the out-of-range neighbour
(defaulted here to `s[⌊v⌋]` itself) is multiplied by zero and never matters.
`np.percentile([])` raises; the empty case is modelled as `0` and unused. -/
def npPercentile (l : List ℚ) (q : ℚ) : ℚ :=
  let s := sortQ l
  let n := s.length
  if n = 0 then 0
  else
    let v : ℚ := q * (n - 1) / 100
    let lo : ℕ := (ratFloor v).toNat
    let w := s.getD lo 0
    w + (v - lo) * (s.getD (lo + 1) w - w)

/-- `EnhancedHyperionSort._advanced_partition`: below 1000 elements, a single
partition holding the whole array; otherwise compute
`quantiles = np.linspace(0, 100, min(len(arr)//1000 + 1, 10))`,
`pivots = np.percentile(arr, quantiles)`, and for each `i` in
`range(1, len(pivots))` the partition of the elements `x` with
`pivots[i-1] <= x < pivots[i]` (strict upper bound also on the *last* pair),
keeping only non-empty partitions.  `np.linspace(0, 100, m)` is
`[100 * i / (m - 1) for i in range(m)]`; `m ≥ 2` whenever this branch runs. -/
def advanced_partition (arr : List ℚ) : List (List ℚ) :=
  if arr.length < 1000 then [arr]
  else
    let m := min (arr.length / 1000 + 1) 10
    let quantiles := (List.range m).map (fun i : ℕ => (100 * (i : ℚ)) / ((m : ℚ) - 1))
    let pivots := quantiles.map (npPercentile arr)
    ((List.range (pivots.length - 1)).map (fun j =>
      arr.filter (fun x =>
        decide (pivots.getD j 0 ≤ x) && decide (x < pivots.getD (j + 1) 0)))).filter
      (fun p => decide (0 < p.length))

/-- `EnhancedHyperionSort._hybrid_sort`: whole-array sort below 1000
elements, otherwise sort each `_advanced_partition` partition (the thread
pool's `map` preserves order) and concatenate. -/
def hybrid_sort (arr : List ℚ) : List ℚ :=
  if arr.length < 1000 then sortQ arr
  else ((advanced_partition arr).map sortQ).flatten

/-- The fields of `SortStats` that the claims inspect. -/
structure SortStatsM where
  strategy_used : String
  algorithm_used : String
  items_processed : ℕ
  error_detected : Bool
deriving DecidableEq

/-- `EnhancedHyperionSort._calculate_stats` restricted to the modelled
fields (the remaining fields are wall-clock/process metrics). -/
def calculate_stats (arr : List ℚ) (strategy algorithm : String) (err : Bool) :
    SortStatsM :=
  { strategy_used := strategy, algorithm_used := algorithm,
    items_processed := arr.length, error_detected := err }

/-- Lines 689–699 of `EnhancedHyperionSort.sort`: check the dispatched
result is non-decreasing; if it is, return it with its stats, otherwise
discard it and return `np.sort(arr, kind="stable")` together with stats for
strategy `"fallback"`, algorithm `self.fallback_strategy.value`
(`Algorithm.MERGESORT`, i.e. `"mergesort"`) and `error_detected = True`. -/
def sortVerify (arr result : List ℚ) (stats : SortStatsM) : List ℚ × SortStatsM :=
  if nonDecreasing result then (result, stats)
  else (sortQ arr, calculate_stats arr "fallback" "mergesort" true)

/-- The `SortStrategy.HYBRID` dispatch arm of `sort` followed by the
verification step: `result = (self._hybrid_sort(arr), stats("hybrid",
Algorithm.INTROSORT.value))`, then the `is_sorted` check. -/
def sortHybrid (arr : List ℚ) : List ℚ × SortStatsM :=
  sortVerify arr (hybrid_sort arr) (calculate_stats arr "hybrid" "introsort" false)

/-- A 1000-element input on which `_advanced_partition` drops the maximum:
999 zeroes followed by a single one. -/
def maxDropInput : List ℚ := List.replicate 999 0 ++ [1]

theorem replicate_getD : ∀ i, i < 999 → (List.replicate 999 (0 : ℚ)).getD i 0 = 0 := by
  intro i hi
  rw [List.getD_eq_getElem?_getD, List.getElem?_replicate, if_pos hi]
  rfl

theorem replicate_len : (List.replicate 999 (0 : ℚ)).length = 999 :=
  List.length_replicate 999 0

theorem sorted_replicate : List.Sorted (· ≤ ·) (List.replicate 999 (0 : ℚ)) :=
  List.pairwise_replicate.mpr (Or.inr le_rfl)

theorem sorted_maxDropInput : List.Sorted (· ≤ ·) maxDropInput := by
  rw [maxDropInput, List.Sorted, List.pairwise_append]
  refine ⟨sorted_replicate, List.pairwise_singleton _ _, ?_⟩
  intro a ha b hb
  rw [List.eq_of_mem_replicate ha, List.mem_singleton.mp hb]
  norm_num

theorem len_maxDropInput : maxDropInput.length = 1000 := by
  rw [maxDropInput, List.length_append, replicate_len]
  rfl

theorem sortQ_maxDropInput : sortQ maxDropInput = maxDropInput :=
  sortQ_eq_self sorted_maxDropInput

theorem maxDropInput_getD_zero : maxDropInput.getD 0 0 = 0 := by
  rw [maxDropInput, List.getD_append _ _ _ _ (by rw [replicate_len]; norm_num)]
  exact replicate_getD 0 (by norm_num)

theorem maxDropInput_getD_last : maxDropInput.getD 999 0 = 1 := by
  rw [maxDropInput, List.getD_append_right _ _ _ _ (le_of_eq replicate_len)]
  rw [replicate_len]
  rfl

theorem npPercentile_maxDropInput_zero : npPercentile maxDropInput 0 = 0 := by
  simp only [npPercentile, sortQ_maxDropInput, len_maxDropInput]
  rw [if_neg (by norm_num)]
  have hv : (0 : ℚ) * ((1000 : ℕ) - 1) / 100 = 0 := by norm_num
  rw [hv, show (ratFloor 0).toNat = 0 from by decide, maxDropInput_getD_zero]
  norm_num

theorem npPercentile_maxDropInput_hundred : npPercentile maxDropInput 100 = 1 := by
  simp only [npPercentile, sortQ_maxDropInput, len_maxDropInput]
  rw [if_neg (by norm_num)]
  have hv : (100 : ℚ) * ((1000 : ℕ) - 1) / 100 = 999 := by norm_num
  rw [hv, show (ratFloor 999).toNat = 999 from by decide, maxDropInput_getD_last]
  norm_num

/-- On `maxDropInput` the quantiles are `[0, 100]`, the pivots `[0, 1]`, and
the single mask `0 ≤ x < 1` drops the maximum element `1`. -/
theorem advanced_partition_maxDropInput :
    advanced_partition maxDropInput = [List.replicate 999 0] := by
  simp only [advanced_partition]
  rw [if_neg (by rw [len_maxDropInput]; norm_num)]
  rw [len_maxDropInput]
  rw [show min (1000 / 1000 + 1) 10 = 2 from by norm_num]
  rw [show List.range 2 = [0, 1] from rfl]
  simp only [List.map_cons, List.map_nil]
  norm_num [npPercentile_maxDropInput_zero, npPercentile_maxDropInput_hundred]
  rw [show List.range 1 = [0] from rfl]
  simp only [List.map_cons, List.map_nil]
  norm_num
  have hfil : maxDropInput.filter (fun x => decide ((0 : ℚ) ≤ x) && decide (x < 1)) =
      List.replicate 999 0 := by
    rw [maxDropInput, List.filter_append, List.filter_replicate]
    rw [if_pos (by decide)]
    rw [show List.filter (fun x => decide ((0 : ℚ) ≤ x) && decide (x < 1)) [1] = []
      from by decide]
    exact List.append_nil _
  rw [hfil]
  simp only [List.filter_cons, List.filter_nil, replicate_len]
  norm_num

theorem hybrid_sort_maxDropInput : hybrid_sort maxDropInput = List.replicate 999 0 := by
  simp only [hybrid_sort]
  rw [if_neg (by rw [len_maxDropInput]; norm_num), advanced_partition_maxDropInput]
  simp only [List.map_cons, List.map_nil, sortQ_eq_self sorted_replicate]
  simp only [List.flatten_cons, List.flatten_nil, List.append_nil]

/-- C3 (code-bug evaluation): on the 1000-element array of 999 zeroes and a
single one, the percentile-based `_advanced_partition` produces partitions
whose concatenation has only 999 elements — the element equal to the maximum
is lost because every mask, including the last, uses the strict bound
`x < pivots[i]` with `pivots[-1]` the 100th percentile (the maximum).  The
partitions therefore do not reconstruct the original multiset, contradicting
the claim. -/
theorem advanced_partition_loses_max :
    maxDropInput.length = 1000 ∧
    ((advanced_partition maxDropInput).map List.length).sum = 999 ∧
    (advanced_partition maxDropInput).flatten.length = 999 := by
  refine ⟨len_maxDropInput, ?_, ?_⟩ <;> rw [advanced_partition_maxDropInput]
  · simp only [List.map_cons, List.map_nil, List.sum_cons, List.sum_nil, replicate_len]
    omega
  · simp only [List.flatten_cons, List.flatten_nil, List.append_nil, replicate_len]

/-- C1 (code-bug evaluation): dispatching the same 1000-element array through
the HYBRID arm of `sort`, the returned array has 999 elements (the maximum
was silently dropped by `_advanced_partition`), yet it *is* non-decreasing,
so the post-hoc verification accepts it and `sort` completes without raising
and without `error_detected` — returning a result that is not a permutation
of the input. -/
theorem sort_hybrid_not_permutation :
    maxDropInput.length = 1000 ∧
    (sortHybrid maxDropInput).1.length = 999 ∧
    nonDecreasing (sortHybrid maxDropInput).1 = true ∧
    (sortHybrid maxDropInput).2.error_detected = false := by
  have hnd : nonDecreasing (List.replicate 999 (0 : ℚ)) = true :=
    (nonDecreasing_iff_sorted _).mpr sorted_replicate
  have h1 : sortHybrid maxDropInput =
      (List.replicate 999 0, calculate_stats maxDropInput "hybrid" "introsort" false) := by
    simp only [sortHybrid, hybrid_sort_maxDropInput, sortVerify, hnd, if_true]
  refine ⟨len_maxDropInput, ?_, ?_, ?_⟩
  · rw [h1]
    exact replicate_len
  · rw [h1]
    exact hnd
  · rw [h1]
    rfl

/-- C2: whenever the dispatched result fails the non-decreasing check,
`sort` returns the guaranteed stable sort of the *input* array — a sorted
permutation of it — with `error_detected = true` and the fallback algorithm
`"mergesort"` recorded as `algorithm_used`. -/
theorem sort_verification_fallback (arr result : List ℚ) (stats : SortStatsM)
    (h : nonDecreasing result = false) :
    (sortVerify arr result stats).1 = sortQ arr ∧
    List.Sorted (· ≤ ·) (sortVerify arr result stats).1 ∧
    (sortVerify arr result stats).1.Perm arr ∧
    (sortVerify arr result stats).2.error_detected = true ∧
    (sortVerify arr result stats).2.algorithm_used = "mergesort" ∧
    (sortVerify arr result stats).2.strategy_used = "fallback" := by
  have hv : sortVerify arr result stats =
      (sortQ arr, calculate_stats arr "fallback" "mergesort" true) := by
    rw [sortVerify, if_neg (by rw [h]; exact Bool.false_ne_true)]
  rw [hv]
  exact ⟨rfl, sortQ_sorted arr, sortQ_perm arr, rfl, rfl, rfl⟩

/-- Witness for `sort_verification_fallback`: the out-of-order dispatched
result `[2, 1]` for input `[3, 1, 2]` is discarded in favour of its stable
sort. -/
theorem sort_verification_fallback_witness :
    nonDecreasing [2, 1] = false ∧
    ((sortVerify [3, 1, 2] [2, 1] (calculate_stats [3, 1, 2] "hybrid" "introsort" false)).1 =
        sortQ [3, 1, 2] ∧
      List.Sorted (· ≤ ·)
        (sortVerify [3, 1, 2] [2, 1] (calculate_stats [3, 1, 2] "hybrid" "introsort" false)).1 ∧
      (sortVerify [3, 1, 2] [2, 1]
            (calculate_stats [3, 1, 2] "hybrid" "introsort" false)).1.Perm [3, 1, 2] ∧
      (sortVerify [3, 1, 2] [2, 1]
            (calculate_stats [3, 1, 2] "hybrid" "introsort" false)).2.error_detected = true ∧
      (sortVerify [3, 1, 2] [2, 1]
            (calculate_stats [3, 1, 2] "hybrid" "introsort" false)).2.algorithm_used =
        "mergesort" ∧
      (sortVerify [3, 1, 2] [2, 1]
            (calculate_stats [3, 1, 2] "hybrid" "introsort" false)).2.strategy_used =
        "fallback") :=
  ⟨by decide, sort_verification_fallback [3, 1, 2] [2, 1] _ (by decide)⟩

/-! ### `EnhancedHyperionSort._optimize_bucket_count` (claim C4) -/

/-- `np.mean`: arithmetic mean (`0` for the empty list, unused). -/
def listMean (l : List ℚ) : ℚ := l.sum / l.length

/-- `np.std(l) ** 2`: the population variance (`ddof = 0`), which is exactly
rational; the code's `std_dev` is its square root. -/
def listVar (l : List ℚ) : ℚ :=
  ((l.map (fun x => (x - listMean l) ^ 2)).sum) / l.length

/-- `np.min` (`0` for the empty list, unused). -/
def listMin : List ℚ → ℚ
  | [] => 0
  | x :: xs => xs.foldl min x

/-- `np.max` (`0` for the empty list, unused). -/
def listMax : List ℚ → ℚ
  | [] => 0
  | x :: xs => xs.foldl max x

/-- `np.ptp`: the range `max - min`. -/
def listRange (l : List ℚ) : ℚ := listMax l - listMin l

theorem foldl_min_mem : ∀ (xs : List ℚ) (x : ℚ), xs.foldl min x ∈ x :: xs := by
  intro xs
  induction xs with
  | nil => intro x; simp
  | cons y ys ih =>
    intro x
    rw [List.foldl_cons]
    have h := ih (min x y)
    rcases List.mem_cons.mp h with h1 | h1
    · rw [h1]
      rcases min_choice x y with hc | hc <;> rw [hc] <;> simp
    · simp [List.mem_cons_of_mem, h1]

theorem foldl_min_le : ∀ (xs : List ℚ) (x : ℚ), ∀ y ∈ x :: xs, xs.foldl min x ≤ y := by
  intro xs
  induction xs with
  | nil =>
    intro x y hy
    rw [List.mem_singleton.mp hy]
    exact le_rfl
  | cons z zs ih =>
    intro x y hy
    rw [List.foldl_cons]
    rcases List.mem_cons.mp hy with h1 | h1
    · subst h1
      exact le_trans (ih (min y z) _ (List.mem_cons_self _ _)) (min_le_left y z)
    rcases List.mem_cons.mp h1 with h2 | h2
    · subst h2
      exact le_trans (ih (min x y) _ (List.mem_cons_self _ _)) (min_le_right x y)
    · exact ih (min x z) y (List.mem_cons_of_mem _ h2)

theorem foldl_max_mem : ∀ (xs : List ℚ) (x : ℚ), xs.foldl max x ∈ x :: xs := by
  intro xs
  induction xs with
  | nil => intro x; simp
  | cons y ys ih =>
    intro x
    rw [List.foldl_cons]
    have h := ih (max x y)
    rcases List.mem_cons.mp h with h1 | h1
    · rw [h1]
      rcases max_choice x y with hc | hc <;> rw [hc] <;> simp
    · simp [List.mem_cons_of_mem, h1]

theorem le_foldl_max : ∀ (xs : List ℚ) (x : ℚ), ∀ y ∈ x :: xs, y ≤ xs.foldl max x := by
  intro xs
  induction xs with
  | nil =>
    intro x y hy
    rw [List.mem_singleton.mp hy]
    exact le_rfl
  | cons z zs ih =>
    intro x y hy
    rw [List.foldl_cons]
    rcases List.mem_cons.mp hy with h1 | h1
    · subst h1
      exact le_trans (le_max_left y z) (ih (max y z) _ (List.mem_cons_self _ _))
    rcases List.mem_cons.mp h1 with h2 | h2
    · subst h2
      exact le_trans (le_max_right x y) (ih (max x y) _ (List.mem_cons_self _ _))
    · exact ih (max x z) y (List.mem_cons_of_mem _ h2)

theorem listMin_mem {l : List ℚ} (h : l ≠ []) : listMin l ∈ l := by
  cases l with
  | nil => exact absurd rfl h
  | cons x xs => exact foldl_min_mem xs x

theorem listMin_le {l : List ℚ} (y : ℚ) (hy : y ∈ l) : listMin l ≤ y := by
  cases l with
  | nil => cases hy
  | cons x xs => exact foldl_min_le xs x y hy

theorem listMax_mem {l : List ℚ} (h : l ≠ []) : listMax l ∈ l := by
  cases l with
  | nil => exact absurd rfl h
  | cons x xs => exact foldl_max_mem xs x

theorem le_listMax {l : List ℚ} (y : ℚ) (hy : y ∈ l) : y ≤ listMax l := by
  cases l with
  | nil => cases hy
  | cons x xs => exact le_foldl_max xs x y hy

theorem listVar_nonneg (l : List ℚ) : 0 ≤ listVar l := by
  apply div_nonneg
  · exact List.sum_nonneg (by
      intro x hx
      rcases List.mem_map.mp hx with ⟨a, _, rfl⟩
      positivity)
  · positivity

/-- Any sample attaining both its minimum and its maximum has variance at
least `range² / (2 · size)`: the two extreme points alone contribute
`(min − μ)² + (max − μ)² ≥ (max − min)² / 2` to the sum of squares. -/
theorem listVar_ge_range_sq (l : List ℚ) (hne : l ≠ []) :
    listRange l ^ 2 / (2 * l.length) ≤ listVar l := by
  set μ := listMean l with hμ
  set a := listMin l with ha
  set b := listMax l with hb
  have hlen : (0 : ℚ) < l.length := by
    have := List.length_pos.mpr hne
    exact_mod_cast this
  by_cases hab : a = b
  · have hr : listRange l = 0 := by rw [listRange, ← ha, ← hb, hab, sub_self]
    rw [hr]
    simpa using listVar_nonneg l
  · have hbmem : b ∈ l.erase a := (List.mem_erase_of_ne (Ne.symm hab)).mpr (listMax_mem hne)
    have hperm : l.Perm (a :: l.erase a) := List.perm_cons_erase (listMin_mem hne)
    have hsum : (l.map (fun x => (x - μ) ^ 2)).sum =
        (a - μ) ^ 2 + ((l.erase a).map (fun x => (x - μ) ^ 2)).sum := by
      rw [(hperm.map (fun x => (x - μ) ^ 2)).sum_eq]
      simp
    have hble : (b - μ) ^ 2 ≤ ((l.erase a).map (fun x => (x - μ) ^ 2)).sum := by
      apply List.single_le_sum
      · intro x hx
        rcases List.mem_map.mp hx with ⟨c, _, rfl⟩
        positivity
      · exact List.mem_map.mpr ⟨b, hbmem, rfl⟩
    have hkey : (b - a) ^ 2 / 2 ≤ (l.map (fun x => (x - μ) ^ 2)).sum := by
      rw [hsum]
      nlinarith [sq_nonneg (a + b - 2 * μ), hble]
    have hr : listRange l = b - a := by rw [listRange, ← ha, ← hb]
    rw [listVar, hr]
    rw [div_le_div_iff (by positivity) hlen]
    calc (b - a) ^ 2 * (l.length : ℚ)
        = ((b - a) ^ 2 / 2) * (2 * (l.length : ℚ)) := by ring
    _ ≤ (l.map (fun x => (x - μ) ^ 2)).sum * (2 * (l.length : ℚ)) := by
        apply mul_le_mul_of_nonneg_right hkey (by positivity)

/-- `int(n / math.log2 n)` for `n ≥ 2`: the greatest `k` with
`k ≤ n / log2 n`; applying the monotone `2 ^ (· * log2 n)` this is the
greatest `k ≤ n` with `n ^ k ≤ 2 ^ n` (the bound `k ≤ n` is safe because
`n / log2 n ≤ n`). -/
def nDivLog2Floor (n : ℕ) : ℕ := Nat.findGreatest (fun k => n ^ k ≤ 2 ^ n) n

theorem one_le_nDivLog2Floor {n : ℕ} (h : 2 ≤ n) : 1 ≤ nDivLog2Floor n :=
  Nat.le_findGreatest (by omega) (by rw [pow_one]; exact (Nat.lt_two_pow n).le)

/-- `int(math.sqrt q)` for a non-negative rational `q`: the exact floor of
`√q`.  Writing `q = p / d` in lowest terms, `√(p/d) = √(p·d) / d`, and since
flooring commutes with division by the positive integer `d`,
`⌊√(p/d)⌋ = ⌊⌊√(p·d)⌋ / d⌋ = Nat.sqrt (p·d) / d`. -/
def ratSqrtFloor (q : ℚ) : ℕ := Nat.sqrt (q.num.toNat * q.den) / q.den

theorem one_le_ratSqrtFloor {q : ℚ} (h : 2 ≤ q) : 1 ≤ ratSqrtFloor q := by
  have hfl : (2 : ℤ) ≤ q.num / (q.den : ℤ) := by
    rw [← Rat.floor_def]
    exact Int.le_floor.mpr (by exact_mod_cast h)
  have hden : (0 : ℤ) < (q.den : ℤ) := by exact_mod_cast q.den_pos
  have hnum : 2 * (q.den : ℤ) ≤ q.num := (Int.le_ediv_iff_mul_le hden).mp hfl
  have hnum' : q.den ≤ q.num.toNat := by omega
  have hsq : q.den ≤ Nat.sqrt (q.num.toNat * q.den) := by
    calc q.den = Nat.sqrt (q.den * q.den) := (Nat.sqrt_eq q.den).symm
    _ ≤ Nat.sqrt (q.num.toNat * q.den) :=
        Nat.sqrt_le_sqrt (Nat.mul_le_mul_right _ hnum')
  rw [ratSqrtFloor]
  exact (Nat.le_div_iff_mul_le q.den_pos).mpr (by omega)

/-- `EnhancedHyperionSort._optimize_bucket_count`, as a function of the array
length `n` and of the statistical sample the code draws at random
(`arr[np.random.choice(n, min(1000, n), replace=False)]`), which is passed
explicitly.  The `AdaptiveCache` memo lookup is omitted: this is the
computation performed on a cache miss (the cache starts empty).
Faithfulness notes: the branch test `std_dev < range_size / 100` is stated
on squares (`var < (range/100)²`), equivalent because both `std` and `range`
are non-negative; `int(math.sqrt n)` is `Nat.sqrt n`; and
`int(min(math.sqrt(n) * (std/range) * 2, n / math.log2 n))` is
`min (ratSqrtFloor (4·n·var/range²)) (nDivLog2Floor n)` because
`sqrt(n)·(std/range)·2 = √(4·n·var/range²)` and the floor of a `min` is the
`min` of the floors.  When the sample is constant the else-branch computes
`std_dev / range_size = 0.0 / 0.0 = NaN`, and `int(min(NaN, …)) = int(NaN)`
raises `ValueError`: modelled as `none`. -/
def optimize_bucket_count (n : ℕ) (sample : List ℚ) : Option ℕ :=
  if n < 1000 then some (max 1 (n / 10))
  else
    let v := listVar sample
    let r := listRange sample
    if v < (r / 100) ^ 2 then some (Nat.sqrt n)
    else if r = 0 then none
    else some (min (ratSqrtFloor (4 * n * v / r ^ 2)) (nDivLog2Floor n))

theorem foldl_min_replicate (a : ℚ) : ∀ k, (List.replicate k a).foldl min a = a := by
  intro k
  induction k with
  | zero => rfl
  | succ m ih =>
    rw [List.replicate_succ, List.foldl_cons, min_self]
    exact ih

theorem foldl_max_replicate (a : ℚ) : ∀ k, (List.replicate k a).foldl max a = a := by
  intro k
  induction k with
  | zero => rfl
  | succ m ih =>
    rw [List.replicate_succ, List.foldl_cons, max_self]
    exact ih

theorem listMean_replicate : listMean (List.replicate 1000 (5 : ℚ)) = 5 := by
  rw [listMean, List.sum_replicate, List.length_replicate, nsmul_eq_mul]
  norm_num

theorem listVar_replicate : listVar (List.replicate 1000 (5 : ℚ)) = 0 := by
  rw [listVar, listMean_replicate, List.map_replicate]
  rw [show ((5 : ℚ) - 5) ^ 2 = 0 from by norm_num]
  rw [List.sum_replicate, smul_zero, List.length_replicate]
  norm_num

theorem listRange_replicate : listRange (List.replicate 1000 (5 : ℚ)) = 0 := by
  have h1 : listMin (List.replicate 1000 (5 : ℚ)) = 5 := by
    rw [show (1000 : ℕ) = 999 + 1 from rfl, List.replicate_succ]
    show (List.replicate 999 (5 : ℚ)).foldl min 5 = 5
    exact foldl_min_replicate 5 999
  have h2 : listMax (List.replicate 1000 (5 : ℚ)) = 5 := by
    rw [show (1000 : ℕ) = 999 + 1 from rfl, List.replicate_succ]
    show (List.replicate 999 (5 : ℚ)).foldl max 5 = 5
    exact foldl_max_replicate 5 999
  rw [listRange, h1, h2, sub_self]

/-- C4 (counterexample): on a constant 1000-element array (every statistical
sample of it is constant, so the sample is `replicate 1000 5`), the sample's
standard deviation and range are both `0`; the branch test `0.0 < 0.0` is
false, so the high-variance branch runs and computes
`std_dev / range_size = 0.0 / 0.0 = NaN`; `int(min(NaN, …))` then raises
`ValueError`.  The heuristic does not return an integer ≥ 1 — it does not
return at all, and the enclosing `_bucket_sort` call aborts. -/
theorem bucket_count_nan_counterexample :
    (List.replicate 1000 (5 : ℚ)).length = 1000 ∧
    optimize_bucket_count 1000 (List.replicate 1000 5) = none := by
  refine ⟨List.length_replicate 1000 5, ?_⟩
  simp only [optimize_bucket_count]
  rw [if_neg (by norm_num)]
  rw [listVar_replicate, listRange_replicate]
  norm_num

/-- C4 (amended): for every array of length `n ≥ 1000` whose statistical
sample (of size ≤ `n`) attains at least two distinct values (positive
range), the heuristic returns an integer ≥ 1 — in the low-variance branch
`int(sqrt n) ≥ 31`, and in the high-variance branch
`sqrt(n)·(std/range)·2 ≥ √(2n/size) ≥ √2 > 1` because
`var ≥ range²/(2·size)`, while `n/log2 n ≥ 1` — so the bucket sort that
divides by this count never divides by zero.  (For a constant sample the
heuristic instead raises `ValueError`; see the counterexample.) -/
theorem bucket_count_ge_one (n : ℕ) (sample : List ℚ)
    (hn : 1000 ≤ n) (hs : sample.length ≤ n) (hr : 0 < listRange sample) :
    ∃ k, optimize_bucket_count n sample = some k ∧ 1 ≤ k := by
  have hne : sample ≠ [] := by
    intro h
    rw [h] at hr
    simp [listRange, listMin, listMax] at hr
  have hlenpos : 0 < sample.length := List.length_pos.mpr hne
  simp only [optimize_bucket_count]
  rw [if_neg (by omega)]
  by_cases hbr : listVar sample < (listRange sample / 100) ^ 2
  · rw [if_pos hbr]
    refine ⟨Nat.sqrt n, rfl, ?_⟩
    calc 1 = Nat.sqrt 1 := by norm_num
    _ ≤ Nat.sqrt n := Nat.sqrt_le_sqrt (by omega)
  · rw [if_neg hbr, if_neg (ne_of_gt hr)]
    refine ⟨_, rfl, le_min ?_ (one_le_nDivLog2Floor (by omega))⟩
    apply one_le_ratSqrtFloor
    have hv := listVar_ge_range_sq sample hne
    have hr2 : (0 : ℚ) < listRange sample ^ 2 := by positivity
    rw [le_div_iff hr2]
    have hsle : (sample.length : ℚ) ≤ (n : ℚ) := by exact_mod_cast hs
    have hlq : (0 : ℚ) < (sample.length : ℚ) := by exact_mod_cast hlenpos
    rw [div_le_iff (by positivity)] at hv
    have hvpos : 0 ≤ listVar sample := listVar_nonneg sample
    nlinarith [hv, mul_nonneg (sub_nonneg.mpr hsle) hvpos]

/-- Witness for `bucket_count_ge_one` at `n = 1000` with the two-point
sample `[0, 100]`. -/
theorem bucket_count_ge_one_witness :
    (1000 ≤ 1000 ∧ ([0, 100] : List ℚ).length ≤ 1000 ∧
      0 < listRange [0, 100]) ∧
    ∃ k, optimize_bucket_count 1000 [0, 100] = some k ∧ 1 ≤ k := by
  have hr : (0 : ℚ) < listRange [0, 100] := by
    norm_num [listRange, listMin, listMax]
  exact ⟨⟨le_rfl, by norm_num, hr⟩,
    bucket_count_ge_one 1000 [0, 100] le_rfl (by norm_num) hr⟩

/-! ### `AdaptiveCache` (claims C6, C7) -/

/-- State of an `AdaptiveCache`.  Keys and values are modelled as naturals
(the code stores integer bucket counts under string keys; only key equality
matters).  `cache` is an insertion-ordered association list (a Python dict);
`history` is the `_access_history` deque, leftmost entry oldest, with
capacity `histMaxlen`; `memo` models the `@lru_cache(maxsize=256)` wrapper
on `get` — `functools.lru_cache` returns the memoized result of
`get(self, key)` without running the method body at all — most recent entry
first. -/
structure AdaptiveCache where
  cache : List (ℕ × ℕ)
  size : ℕ
  hits : ℕ
  misses : ℕ
  history : List ℕ
  histMaxlen : ℕ
  minSize : ℕ
  memo : List (ℕ × Option ℕ)
deriving DecidableEq

/-- `AdaptiveCache.__init__(initial_size)`. -/
def AdaptiveCache.init (initialSize : ℕ) : AdaptiveCache :=
  { cache := [], size := initialSize, hits := 0, misses := 0,
    history := [], histMaxlen := initialSize, minSize := initialSize / 2,
    memo := [] }

/-- `deque.append` on a deque with `maxlen`: when the deque is full the
leftmost (oldest) entry is silently discarded. -/
def dequeAppend {α : Type} (maxlen : ℕ) (l : List α) (x : α) : List α :=
  if maxlen = 0 then []
  else if l.length < maxlen then l ++ [x]
  else (l ++ [x]).drop (l.length + 1 - maxlen)

/-- Python `dict` lookup on an insertion-ordered association list. -/
def alistLookup (l : List (ℕ × ℕ)) (k : ℕ) : Option ℕ :=
  (l.find? (fun p => p.1 == k)).map Prod.snd

/-- `d[k] = v`: update in place when the key exists (keeping its position),
append otherwise. -/
def alistSet (l : List (ℕ × ℕ)) (k v : ℕ) : List (ℕ × ℕ) :=
  if (alistLookup l k).isSome then
    l.map (fun p => if p.1 == k then (k, v) else p)
  else l ++ [(k, v)]

/-- `d.pop(k, None)`: remove the entry for `k` if present, otherwise do
nothing. -/
def alistErase (l : List (ℕ × ℕ)) (k : ℕ) : List (ℕ × ℕ) :=
  l.filter (fun p => p.1 != k)

/-- Lookup in the `lru_cache` memo table. -/
def memoLookup (m : List (ℕ × Option ℕ)) (k : ℕ) : Option (Option ℕ) :=
  (m.find? (fun p => p.1 == k)).map Prod.snd

/-- On an `lru_cache` hit the entry becomes most recently used. -/
def memoTouch (m : List (ℕ × Option ℕ)) (k : ℕ) : List (ℕ × Option ℕ) :=
  match m.find? (fun p => p.1 == k) with
  | none => m
  | some p => p :: m.filter (fun q => q.1 != k)

/-- On an `lru_cache` miss the computed result is recorded as most recently
used; at `maxsize = 256` the least recently used entry (the last) is
evicted. -/
def memoInsert (m : List (ℕ × Option ℕ)) (k : ℕ) (r : Option ℕ) :
    List (ℕ × Option ℕ) :=
  (k, r) :: (if m.length < 256 then m else m.dropLast)

/-- `AdaptiveCache._should_resize`: false when the access history is empty;
otherwise true when the hit rate `hits / (hits + misses + 1)` is below the
resize threshold `0.8` or the history holds fewer than `min_size` entries.
The float comparison `hits/(hits+misses+1) < 0.8` is stated as the exact
integer comparison `5 * hits < 4 * (hits + misses + 1)` (the denominator is
positive). -/
def AdaptiveCache.shouldResize (s : AdaptiveCache) : Bool :=
  !s.history.isEmpty &&
    (decide (5 * s.hits < 4 * (s.hits + s.misses + 1)) ||
      decide (s.history.length < s.minSize))

/-- `AdaptiveCache.resize`: grow `size` to `max(min_size, int(size * 1.5))`
(`int(size * 1.5) = size * 3 / 2` exactly) and replace `_access_history`
with a fresh *empty* deque of the new capacity. -/
def AdaptiveCache.resize (s : AdaptiveCache) : AdaptiveCache :=
  if s.shouldResize then
    { s with
      size := max s.minSize (s.size * 3 / 2)
      history := []
      histMaxlen := max s.minSize (s.size * 3 / 2) }
  else s

/-- The body of `AdaptiveCache.get` (what runs on an `lru_cache` miss):
on a cache hit, bump `hits` and append the key to the access history; on a
miss, bump `misses`, maybe resize, and return `None`. -/
def AdaptiveCache.getBody (s : AdaptiveCache) (k : ℕ) : Option ℕ × AdaptiveCache :=
  match alistLookup s.cache k with
  | some v =>
    (some v, { s with
      hits := s.hits + 1
      history := dequeAppend s.histMaxlen s.history k })
  | none =>
    (none, AdaptiveCache.resize { s with misses := s.misses + 1 })

/-- `AdaptiveCache.get` as called: the `@lru_cache(maxsize=256)` wrapper
first consults its memo table and, on a wrapper hit, returns the memoized
result without touching the cache state at all. -/
def AdaptiveCache.get (s : AdaptiveCache) (k : ℕ) : Option ℕ × AdaptiveCache :=
  match memoLookup s.memo k with
  | some r => (r, { s with memo := memoTouch s.memo k })
  | none =>
    let p := s.getBody k
    (p.1, { p.2 with memo := memoInsert p.2.memo k p.1 })

/-- `AdaptiveCache.put`: when the dict already holds at least `size`
entries, pop the oldest key from the access history (raising `IndexError`
if the history deque is empty — modelled as `none`), drop that key from the
dict if still present, then insert and record the new key. -/
def AdaptiveCache.put (s : AdaptiveCache) (k v : ℕ) : Option AdaptiveCache :=
  if s.size ≤ s.cache.length then
    match s.history with
    | [] => none
    | oldest :: rest =>
      some { s with
        cache := alistSet (alistErase s.cache oldest) k v
        history := dequeAppend s.histMaxlen rest k }
  else
    some { s with
      cache := alistSet s.cache k v
      history := dequeAppend s.histMaxlen s.history k }

/-- The state after a first `get 1` miss on a fresh cache of capacity 4. -/
def cacheAfterMiss : AdaptiveCache := ((AdaptiveCache.init 4).get 1).2

/-- C6 (code-bug evaluation): `get` is wrapped in `functools.lru_cache`,
which memoizes results per `(self, key)`.  A first `get(1)` on a fresh
cache misses and memoizes `None`; after `put(1, 10)` the entry is present
in the cache dict, yet the next `get(1)` is answered by the memo with the
stale `None` instead of `10` — the claim that a `put` is observable by a
subsequent `get` fails. -/
theorem adaptive_cache_stale_get :
    ((AdaptiveCache.init 4).get 1).1 = none ∧
    (cacheAfterMiss.put 1 10).map
        (fun s => (alistLookup s.cache 1, (s.get 1).1)) =
      some (some 10, none) := by decide

/-- The 10-operation run driving an `AdaptiveCache` of capacity 4 above its
capacity: fill with keys 1–4, miss on 5 (which grows `size` to 6 and clears
the history), insert 6, hit 6 (duplicating it in the history), insert 7,
then two eviction puts — the second pops the history ghost `6`, whose entry
was already evicted, so nothing is removed and the dict grows to 7 > 6. -/
def overflowRun : Option AdaptiveCache :=
  ((AdaptiveCache.init 4).put 1 10).bind fun s =>
    (s.put 2 20).bind fun s =>
      (s.put 3 30).bind fun s =>
        (s.put 4 40).bind fun s =>
          (((s.get 5).2.put 6 60).bind fun s =>
            (((s.get 6).2.put 7 70).bind fun s =>
              (s.put 8 80).bind fun s => s.put 9 90))

/-- C7 (code-bug evaluation): at the end of `overflowRun` the cache holds 7
entries while its capacity is 6 — the invariant "never more entries than the
current capacity" is violated, and the final `put`, performed at capacity,
evicted no entry at all (the popped oldest-tracked key was a stale history
ghost no longer in the dict). -/
theorem adaptive_cache_over_capacity :
    overflowRun.map (fun s => (s.cache.length, s.size)) = some (7, 6) := by decide

/-! ### In-place sorting routines and `_memory_efficient_sort` (claim C9) -/

/-- `EnhancedHyperionSort._insertion_sort` as it is callable.  The method is
decorated `@numba.jit` with nopython mode on, and numba compiles lazily at
the first call: it cannot type the implicit `self` argument (an arbitrary
Python instance) in nopython mode — nor does the undecorated dispatcher
bind the instance — so every call raises numba's typing error *before* any
element of the array is moved.  The shifting loop in the body is dead code,
and no caller ever receives a reordered array from this method. -/
def insertion_sort (arr : List ℚ) : Except String (List ℚ) :=
  Except.error "numba TypingError"

/-- The index `largest` after `heapify`'s two comparisons: start at `i`,
move to the left child `2i+1` if it is in range and larger, then to the
right child `2i+2` if it is in range and larger than the current
candidate. -/
def heapTarget (a : List ℚ) (n i : ℕ) : ℕ :=
  let l1 := if 2 * i + 1 < n ∧ a.getD i 0 < a.getD (2 * i + 1) 0 then 2 * i + 1 else i
  if 2 * i + 2 < n ∧ a.getD l1 0 < a.getD (2 * i + 2) 0 then 2 * i + 2 else l1

theorem heapTarget_bounds (a : List ℚ) (n i : ℕ) (h : heapTarget a n i ≠ i) :
    i < heapTarget a n i ∧ heapTarget a n i < n := by
  rw [heapTarget] at h ⊢
  split_ifs at h ⊢ with h1 h2 h2
  · exact ⟨by omega, h2.1⟩
  · exact ⟨by omega, h1.1⟩
  · exact ⟨by omega, h2.1⟩
  · exact absurd rfl h

/-- Exchange `arr[i], arr[largest] = arr[largest], arr[i]`. -/
def listSwap (a : List ℚ) (i j : ℕ) : List ℚ :=
  (a.set i (a.getD j 0)).set j (a.getD i 0)

theorem listSwap_length (a : List ℚ) (i j : ℕ) :
    (listSwap a i j).length = a.length := by
  simp [listSwap]

/-- `EnhancedHyperionSort._heapsort`'s inner `heapify`: sift the root of the
subtree at `i` down while a child is larger, swapping in place. -/
def heapify (a : List ℚ) (n i : ℕ) : List ℚ :=
  if h : heapTarget a n i = i then a
  else heapify (listSwap a i (heapTarget a n i)) n (heapTarget a n i)
termination_by n - i
decreasing_by
  have hb := heapTarget_bounds a n i h
  omega

theorem swap_head_perm (x : ℚ) : ∀ (xs : List ℚ) (k : ℕ), k < xs.length →
    (xs.getD k 0 :: xs.set k x).Perm (x :: xs) := by
  intro xs
  induction xs with
  | nil =>
    intro k hk
    cases hk
  | cons y ys ih =>
    intro k hk
    cases k with
    | zero =>
      rw [List.getD_cons_zero, List.set_cons_zero]
      exact List.Perm.swap x y ys
    | succ m =>
      have hm : m < ys.length := by simpa using hk
      rw [List.getD_cons_succ, List.set_cons_succ]
      exact ((List.Perm.swap y _ _).trans ((ih m hm).cons y)).trans (List.Perm.swap x y ys)

theorem listSwap_perm_lt : ∀ (l : List ℚ) (i j : ℕ), i < j → j < l.length →
    (listSwap l i j).Perm l := by
  intro l
  induction l with
  | nil =>
    intro i j _ hj
    cases hj
  | cons x xs ih =>
    intro i j hij hj
    cases i with
    | zero =>
      cases j with
      | zero => omega
      | succ m =>
        have hm : m < xs.length := by simpa using hj
        rw [listSwap, List.getD_cons_succ, List.getD_cons_zero, List.set_cons_zero,
          List.set_cons_succ]
        exact swap_head_perm x xs m hm
    | succ ii =>
      cases j with
      | zero => omega
      | succ jj =>
        have he : listSwap (x :: xs) (ii + 1) (jj + 1) = x :: listSwap xs ii jj := by
          rw [listSwap, listSwap, List.getD_cons_succ, List.getD_cons_succ,
            List.set_cons_succ, List.set_cons_succ]
        rw [he]
        exact (ih ii jj (by omega) (by simpa using hj)).cons x

theorem heapify_length : ∀ (a : List ℚ) (n i : ℕ), (heapify a n i).length = a.length := by
  intro a n i
  induction a, n, i using heapify.induct with
  | case1 a n i h => rw [heapify, dif_pos h]
  | case2 a n i h ih =>
    rw [heapify, dif_neg h, ih, listSwap_length]

theorem heapify_perm : ∀ (a : List ℚ) (n i : ℕ), n ≤ a.length → (heapify a n i).Perm a := by
  intro a n i
  induction a, n, i using heapify.induct with
  | case1 a n i h =>
    intro _
    rw [heapify, dif_pos h]
  | case2 a n i h ih =>
    intro hn
    rw [heapify, dif_neg h]
    have hb := heapTarget_bounds a n i h
    have hswap : (listSwap a i (heapTarget a n i)).Perm a :=
      listSwap_perm_lt a i _ hb.1 (lt_of_lt_of_le hb.2 hn)
    exact (ih (by rw [listSwap_length]; exact hn)).trans hswap

/-- `EnhancedHyperionSort._heapsort`: build a max-heap
(`for i in range(n//2 - 1, -1, -1): heapify(n, i)`), then repeatedly swap
the root with the last unsorted position and re-heapify
(`for i in range(n-1, 0, -1): swap(0, i); heapify(i, 0)`).  Everything
happens by in-place swaps on the array object passed in; this function
computes its final contents. -/
def heapsort (arr : List ℚ) : List ℚ :=
  let n := arr.length
  let a1 := (List.range (n / 2)).reverse.foldl (fun a i => heapify a n i) arr
  (List.range' 1 (n - 1)).reverse.foldl (fun a i => heapify (listSwap a 0 i) i 0) a1

theorem foldl_heapify_perm (n : ℕ) : ∀ (L : List ℕ) (a : List ℚ), n ≤ a.length →
    (L.foldl (fun a i => heapify a n i) a).Perm a := by
  intro L
  induction L with
  | nil =>
    intro a _
    exact List.Perm.refl a
  | cons i t ih =>
    intro a hn
    rw [List.foldl_cons]
    exact (ih _ (by rw [heapify_length]; exact hn)).trans (heapify_perm a n i hn)

theorem foldl_extract_perm : ∀ (L : List ℕ) (a : List ℚ),
    (∀ j ∈ L, 1 ≤ j ∧ j < a.length) →
    (L.foldl (fun a i => heapify (listSwap a 0 i) i 0) a).Perm a := by
  intro L
  induction L with
  | nil =>
    intro a _
    exact List.Perm.refl a
  | cons i t ih =>
    intro a hL
    rw [List.foldl_cons]
    obtain ⟨hi1, hi2⟩ := hL i (List.mem_cons_self i t)
    have hsw : (listSwap a 0 i).Perm a := listSwap_perm_lt a 0 i (by omega) hi2
    have hstep : (heapify (listSwap a 0 i) i 0).Perm a :=
      (heapify_perm _ i 0 (by rw [listSwap_length]; omega)).trans hsw
    refine (ih _ ?_).trans hstep
    intro j hj
    rw [hstep.length_eq]
    exact hL j (List.mem_cons_of_mem i hj)

theorem heapsort_perm (arr : List ℚ) : (heapsort arr).Perm arr := by
  rw [heapsort]
  have h1 : ((List.range (arr.length / 2)).reverse.foldl
      (fun a i => heapify a arr.length i) arr).Perm arr :=
    foldl_heapify_perm arr.length _ arr le_rfl
  refine (foldl_extract_perm _ _ ?_).trans h1
  intro j hj
  rw [h1.length_eq]
  rw [List.mem_reverse, List.mem_range'_1] at hj
  omega

/-- `EnhancedHyperionSort._memory_efficient_sort`, returning the pair
`(outcome, final contents of the caller’s array)`.  The body is
`result = np.zeros_like(arr)` followed by
`for i in range(0, len(arr), chunk_size): chunk = arr[i:i+chunk_size];
np.sort(chunk, out=chunk); result[i:i+chunk_size] = chunk`.
`np.sort(a, axis=-1, kind=None, order=None)` accepts no `out` keyword
(in-place sorting is the `ndarray.sort` *method*), so the very first loop
iteration raises `TypeError` before anything is written: for a non-empty
array the outcome is that error and the caller’s array is untouched.
With an empty array the loop body never runs and the empty `zeros_like`
result is returned; with `chunk_size = 0`, `range(0, len(arr), 0)` raises
`ValueError`.  In every branch the second component — the caller’s
array afterwards — is the unchanged input. -/
def memory_efficient_sort (cs : ℕ) (arr : List ℚ) :
    Except String (List ℚ) × List ℚ :=
  if cs = 0 then (Except.error "ValueError", arr)
  else if arr = [] then (Except.ok (List.replicate arr.length 0), arr)
  else (Except.error "TypeError", arr)

/-- C9 (counterexample): at the concrete input `[3, 1, 2]` with chunk size
2, the MEMORY_EFFICIENT path raises `TypeError` on its very first chunk
(`np.sort` has no `out` parameter), so afterwards the caller’s array
still holds exactly its original contents `[3, 1, 2]` — `sort`’s
top-level exception handler then returns that original, unmutated array —
and `_insertion_sort` raises numba’s typing error instead of
reordering anything.  The claimed mutation of the caller’s array never
happens. -/
theorem memory_efficient_sort_never_mutates :
    (memory_efficient_sort 2 [3, 1, 2]).1 = Except.error "TypeError" ∧
    (memory_efficient_sort 2 [3, 1, 2]).2 = [3, 1, 2] ∧
    insertion_sort [3, 1, 2] = Except.error "numba TypingError" :=
  ⟨rfl, rfl, rfl⟩

/-- C9 (amended): the memory-efficient path never mutates the caller’s
array — on every non-empty input (and positive chunk size) it raises
`TypeError` at the first `np.sort(chunk, out=chunk)` call, leaving the
input array exactly as it was (and `sort`’s handler hands the original
back); `_insertion_sort`, decorated `@numba.jit` in nopython mode on an
instance method, likewise raises on every call instead of reordering its
argument; only `_heapsort` reorders, in place, the array object it is
given — its final contents are a permutation of that object’s original
contents. -/
theorem in_place_sort_error_paths (cs : ℕ) (arr : List ℚ)
    (hcs : 0 < cs) (hne : arr ≠ []) :
    (memory_efficient_sort cs arr).1 = Except.error "TypeError" ∧
    (memory_efficient_sort cs arr).2 = arr ∧
    insertion_sort arr = Except.error "numba TypingError" ∧
    (heapsort arr).Perm arr := by
  refine ⟨?_, ?_, rfl, heapsort_perm arr⟩
  · rw [memory_efficient_sort, if_neg (by omega), if_neg hne]
  · rw [memory_efficient_sort]
    split_ifs <;> rfl

/-- Witness for `in_place_sort_error_paths` at chunk size 1 on `[5, 4]`. -/
theorem in_place_sort_error_paths_witness :
    (0 < 1 ∧ ([5, 4] : List ℚ) ≠ []) ∧
    ((memory_efficient_sort 1 [5, 4]).1 = Except.error "TypeError" ∧
      (memory_efficient_sort 1 [5, 4]).2 = [5, 4] ∧
      insertion_sort [5, 4] = Except.error "numba TypingError" ∧
      (heapsort [5, 4]).Perm [5, 4]) :=
  ⟨⟨by decide, by decide⟩,
    in_place_sort_error_paths 1 [5, 4] (by decide) (by decide)⟩

/-! ### `StreamProcessor` (claim C10) -/

/-- `StreamProcessor` state: `chunkSize` is the mutable `self.chunk_size`;
`maxlen` is the capacity of the buffer deque, fixed when
`self.buffer = deque(maxlen=chunk_size)` is built in `__init__` and never
touched again; `history` is `chunk_history` (`deque(maxlen=5)`). -/
structure StreamState where
  chunkSize : ℕ
  maxlen : ℕ
  buffer : List ℚ
  history : List ℕ
  chunksProcessed : ℕ
deriving DecidableEq

/-- `StreamProcessor.__init__(chunk_size)`. -/
def StreamState.init (chunkSize : ℕ) : StreamState :=
  { chunkSize := chunkSize, maxlen := chunkSize, buffer := [], history := [],
    chunksProcessed := 0 }

/-- `StreamProcessor._update_chunk_size`: no change with fewer than two
recorded window sizes; otherwise `chunk_size = max(1000, int(predicted))`,
where the prediction comes from the sklearn `LinearRegression` fitted on
`chunk_history` — an external float computation, modelled as an explicit
oracle returning `int(prediction)`. -/
def updateChunkSize (predict : List ℕ → ℤ) (s : StreamState) : StreamState :=
  if s.history.length < 2 then s
  else { s with chunkSize := (max 1000 (predict s.history)).toNat }

/-- `StreamProcessor.process_stream`: append each incoming element to the
buffer deque (whose `maxlen` silently drops the oldest element when full);
once `len(buffer) >= self.chunk_size`, emit `sorted(buffer)`, record the
window size in `chunk_history`, clear the buffer and adapt `chunk_size`;
at the end of the stream flush any non-empty remainder as a final sorted
window.  Returns the emitted windows and the final state. -/
def process_stream (predict : List ℕ → ℤ) :
    StreamState → List ℚ → List (List ℚ) × StreamState
  | s, [] =>
    if s.buffer.isEmpty then ([], s)
    else ([sortQ s.buffer],
      { s with
        chunksProcessed := s.chunksProcessed + 1
        history := dequeAppend 5 s.history s.buffer.length })
  | s, x :: rest =>
    let buf := dequeAppend s.maxlen s.buffer x
    if s.chunkSize ≤ buf.length then
      let s' := updateChunkSize predict
        { s with
          chunksProcessed := s.chunksProcessed + 1
          history := dequeAppend 5 s.history buf.length
          buffer := [] }
      let p := process_stream predict s' rest
      (sortQ buf :: p.1, p.2)
    else
      process_stream predict { s with buffer := buf } rest

theorem dequeAppend_length_le {α : Type} (m : ℕ) (l : List α) (x : α)
    (h : l.length ≤ m) : (dequeAppend m l x).length ≤ m := by
  rw [dequeAppend]
  split_ifs with h0 h1
  · simp
  · simpa using h1
  · rw [List.length_drop]
    simp only [List.length_append, List.length_cons, List.length_nil]
    omega

theorem updateChunkSize_maxlen (predict : List ℕ → ℤ) (s : StreamState) :
    (updateChunkSize predict s).maxlen = s.maxlen := by
  rw [updateChunkSize]
  split_ifs <;> rfl

theorem updateChunkSize_buffer (predict : List ℕ → ℤ) (s : StreamState) :
    (updateChunkSize predict s).buffer = s.buffer := by
  rw [updateChunkSize]
  split_ifs <;> rfl

/-- Every window `process_stream` emits is `sorted(buffer)` for a buffer
whose length the deque capacity `maxlen` bounds — whatever the adaptive
`chunk_size` does. -/
theorem process_stream_window_le_maxlen (predict : List ℕ → ℤ) :
    ∀ (stream : List ℚ) (s : StreamState), s.buffer.length ≤ s.maxlen →
    ∀ w ∈ (process_stream predict s stream).1, w.length ≤ s.maxlen := by
  intro stream
  induction stream with
  | nil =>
    intro s hs w hw
    rw [process_stream] at hw
    split_ifs at hw with h0
    · cases hw
    · rw [List.mem_singleton.mp hw, sortQ_length]
      exact hs
  | cons x rest ih =>
    intro s hs w hw
    rw [process_stream] at hw
    by_cases hfull : s.chunkSize ≤ (dequeAppend s.maxlen s.buffer x).length
    · rw [if_pos hfull] at hw
      rcases List.mem_cons.mp hw with hw1 | hw1
      · rw [hw1, sortQ_length]
        exact dequeAppend_length_le s.maxlen s.buffer x hs
      · have h1 := ih (updateChunkSize predict
          { s with
            chunksProcessed := s.chunksProcessed + 1
            history := dequeAppend 5 s.history (dequeAppend s.maxlen s.buffer x).length
            buffer := [] })
          (by rw [updateChunkSize_buffer, updateChunkSize_maxlen]; exact Nat.zero_le _)
          w hw1
        rw [updateChunkSize_maxlen] at h1
        exact h1
    · rw [if_neg hfull] at hw
      exact ih { s with buffer := dequeAppend s.maxlen s.buffer x }
        (dequeAppend_length_le s.maxlen s.buffer x hs) w hw

/-- C10: every window emitted by `process_stream` holds at most the
*initially configured* `chunk_size` elements: the buffer deque's capacity is
fixed at construction, so even when `_update_chunk_size` raises
`self.chunk_size` above the initial value, no emitted window can ever
exceed the original capacity (windows are sorted copies of the buffer, and
a full-buffer check against a larger `chunk_size` simply never fires
again). -/
theorem stream_windows_bounded (predict : List ℕ → ℤ) (c0 : ℕ)
    (stream : List ℚ) (w : List ℚ)
    (hw : w ∈ (process_stream predict (StreamState.init c0) stream).1) :
    w.length ≤ c0 :=
  process_stream_window_le_maxlen predict stream (StreamState.init c0)
    (by simp [StreamState.init]) w hw

/-- Witness for `stream_windows_bounded`: initial chunk size 2 on the stream
`3, 1, 2` emits the window `[1, 3]`, of length `2 ≤ 2` (the final flush
emits `[2]`). -/
theorem stream_windows_bounded_witness :
    ([1, 3] : List ℚ) ∈
      (process_stream (fun _ => 0) (StreamState.init 2) [3, 1, 2]).1 ∧
    ([1, 3] : List ℚ).length ≤ 2 :=
  ⟨by decide, stream_windows_bounded (fun _ => 0) 2 [3, 1, 2] [1, 3] (by decide)⟩

/-! ### `_pivot_tree_partition` preserves the multiset (supporting C3) -/

/-- `_pivot_tree_partition`'s inner `_recursive_partition`: a single leaf
below 101 elements or beyond depth 10; otherwise split around the ninther
pivot into strictly-less / equal / strictly-greater (boolean-mask filters,
order preserved) and recurse on the outer two at `depth + 1`. -/
def recursivePartition (arr : List ℚ) (depth : ℕ) : List (List ℚ) :=
  if arr.length ≤ 100 ∨ 10 < depth then [arr]
  else
    recursivePartition (arr.filter (fun x => decide (x < ninther arr))) (depth + 1) ++
      [arr.filter (fun x => decide (x = ninther arr))] ++
      recursivePartition (arr.filter (fun x => decide (ninther arr < x))) (depth + 1)
termination_by 11 - depth
decreasing_by
  all_goals
    rw [not_or] at *
    omega

/-- `EnhancedHyperionSort._pivot_tree_partition`: single partition for at
most 100 elements, otherwise the recursive pivot split with empty
partitions removed. -/
def pivot_tree_partition (arr : List ℚ) : List (List ℚ) :=
  if arr.length ≤ 100 then [arr]
  else (recursivePartition arr 0).filter (fun p => decide (0 < p.length))

theorem filter_three_way_perm (p : ℚ) : ∀ l : List ℚ,
    (l.filter (fun x => decide (x < p)) ++ l.filter (fun x => decide (x = p)) ++
      l.filter (fun x => decide (p < x))).Perm l := by
  intro l
  induction l with
  | nil => simp
  | cons x t ih =>
    rcases lt_trichotomy x p with h | h | h
    · rw [List.filter_cons_of_pos (by simpa using h),
        List.filter_cons_of_neg (by simp [ne_of_lt h]),
        List.filter_cons_of_neg (by simpa using not_lt_of_gt h)]
      exact (List.Perm.of_eq (by simp)).trans (ih.cons x)
    · rw [List.filter_cons_of_neg (by simp [h]),
        List.filter_cons_of_pos (by simpa using h),
        List.filter_cons_of_neg (by simp [h])]
      rw [List.append_assoc, List.cons_append]
      refine List.perm_middle.trans ?_
      exact (List.Perm.cons x (List.Perm.of_eq (List.append_assoc _ _ _).symm)).trans
        (ih.cons x)
    · rw [List.filter_cons_of_neg (by simpa using not_lt_of_gt h),
        List.filter_cons_of_neg (by simp [ne_of_gt h]),
        List.filter_cons_of_pos (by simpa using h)]
      refine List.perm_middle.trans ?_
      exact ih.cons x

theorem recursivePartition_flatten_perm :
    ∀ (arr : List ℚ) (depth : ℕ), ((recursivePartition arr depth).flatten).Perm arr := by
  intro arr depth
  induction arr, depth using recursivePartition.induct with
  | case1 arr depth h =>
    rw [recursivePartition, if_pos h]
    simp
  | case2 arr depth h ih1 ih2 =>
    rw [recursivePartition, if_neg h]
    rw [List.flatten_append, List.flatten_append]
    have hmid : ([arr.filter (fun x => decide (x = ninther arr))] : List (List ℚ)).flatten
        = arr.filter (fun x => decide (x = ninther arr)) := by simp
    refine (List.Perm.append (List.Perm.append ih1 (List.Perm.of_eq hmid)) ih2).trans ?_
    exact filter_three_way_perm (ninther arr) arr

theorem flatten_filter_nonempty : ∀ L : List (List ℚ),
    ((L.filter (fun p => decide (0 < p.length))).flatten) = L.flatten := by
  intro L
  induction L with
  | nil => rfl
  | cons p t ih =>
    cases p with
    | nil =>
      rw [List.filter_cons_of_neg (by simp)]
      simpa using ih
    | cons y ys =>
      rw [List.filter_cons_of_pos (by simp)]
      rw [List.flatten_cons, List.flatten_cons, ih]

/-- Supporting claim C3: the *pivot-tree* splitter preserves the multiset —
concatenating its partitions is a permutation of the input.  The multiset
loss shown in `advanced_partition_loses_max` is specific to the
percentile-based `_advanced_partition`. -/
theorem pivot_tree_partition_flatten_perm (arr : List ℚ) :
    ((pivot_tree_partition arr).flatten).Perm arr := by
  rw [pivot_tree_partition]
  split_ifs with h
  · simp
  · rw [flatten_filter_nonempty]
    exact recursivePartition_flatten_perm arr 0
